import Mathlib

/-!
Verification of the `fui` repository's suggestion engine (`src/feeders.rs`)
and form validation/submission protocol (`src/form.rs`).

Paths and query texts are modelled as `List Char` (Unix, UTF-8 irrelevant:
all reasoning is on exact characters).  Rust `Path` operations used by the
source (`components`, `file_name`, `with_file_name`/`pop`/`push`) are
translated for Unix path syntax: segments are the slash-separated pieces of
the string; empty segments and `.` segments (except a leading `.`) are not
components; a path's raw text is preserved except where `pop`/`push`
rebuild it.
-/

namespace Fui

/-- Slash-separated segments of a path string (Rust `str::split('/')`):
always non-empty; `""` splits to `[[]]`. -/
def segsOf : List Char → List (List Char)
  | [] => [[]]
  | a :: rest =>
    if a = '/' then [] :: segsOf rest
    else
      match segsOf rest with
      | [] => [[a]]
      | s :: ss => (a :: s) :: ss

/-- Joins segments back with `'/'`; left inverse of `segsOf`. -/
def joinSegs : List (List Char) → List Char
  | [] => []
  | [s] => s
  | s :: rest => s ++ '/' :: joinSegs rest


/-! ## The glob-augmentation function (`add_glob`, src/feeders.rs lines 71-92)

`trimJunk` works on the REVERSED segment list and removes leading entries
that are not path components: empty segments (from `//` or a trailing `/`)
and `.` segments (normalised away by Rust `Path::components` except at the
start of a relative path). -/

def trimJunk : List (List Char) → List (List Char)
  | [] => []
  | s :: rest => if s = [] ∨ s = ['.'] then trimJunk rest else s :: rest

/-- `Path::components().last()` rendered with `as_os_str` (`to_str`).
`none` only for the empty path.  If every segment is junk the path is all
slashes and dots: the last component is the root `/` for an absolute path,
else the leading `.` (`CurDir`). -/
def compLastStr (p : List Char) : Option (List Char) :=
  if p = [] then none
  else
    match trimJunk (segsOf p).reverse with
    | [] => if p.head? = some '/' then some ['/'] else some ['.']
    | s :: _ => some s

/-- `Path::file_name()`: the last component when it is a normal one. -/
def fileNameOf (p : List Char) : Option (List Char) :=
  match trimJunk (segsOf p).reverse with
  | [] => none
  | s :: _ => if s = ['.', '.'] then none else some s

/-- Rendering of `parent()` for a path starting with the protected
leading `.` component (`include_cur_dir`): the `.` itself is never
trimmed away, so the result is `.` or `./<kept segments>`. -/
def curDirRender (kept : List (List Char)) : List Char :=
  match kept with
  | [] => ['.']
  | _ :: _ => '.' :: '/' :: joinSegs kept

/-- `PathBuf::pop()` (truncate to `parent()`): drop trailing non-component
segments, the file-name segment, and trailing non-components again.  The
regions Rust's `Components` counts in `len_before_body` are preserved:
the root of an absolute path, and the leading `.` of a relative path that
is `.` or starts with `./` (`include_cur_dir`). -/
def pathPop (p : List Char) : List Char :=
  if p.head? = some '/' then
    '/' :: joinSegs (trimJunk ((trimJunk (segsOf p.tail).reverse).tail)).reverse
  else if (segsOf p).head? = some ['.'] then
    curDirRender (trimJunk ((trimJunk ((segsOf p).tail).reverse).tail)).reverse
  else
    joinSegs (trimJunk ((trimJunk (segsOf p).reverse).tail)).reverse

/-- `PathBuf::push(w)`: replaces everything when `w` is absolute, otherwise
appends `w` with a separator when one is needed. -/
def pathPush (buf w : List Char) : List Char :=
  if w.head? = some '/' then w
  else if buf = [] then w
  else if buf.getLast? = some '/' then buf ++ w
  else buf ++ '/' :: w

/-- `Path::with_file_name(w)` = `set_file_name`: pop the file name when one
exists, then push. -/
def withFileName (p w : List Char) : List Char :=
  match fileNameOf p with
  | some _ => pathPush (pathPop p) w
  | none => pathPush p w

/-- `add_glob` (src/feeders.rs lines 71-92): add a star to the last
component of the path. -/
def add_glob (p : List Char) : List Char :=
  if p.getLast? = some '/' then p ++ ['*']
  else
    match compLastStr p with
    | none => ['*']
    | some last =>
      if '*' ∈ last then p
      else
        let wrapped := if last = ['/'] then last ++ ['*'] else '*' :: (last ++ ['*'])
        withFileName p wrapped

/-- Modelled from the spec's words (§4.1 step 2): the rule acts on the last
path component only, read as the final slash-separated segment.  If the
path ends with a separator append `*` as a new trailing component;
otherwise wrap a wildcard-free last component as `*<component>*` in place;
a last component that already has a wildcard leaves the path unchanged. -/
def add_glob_spec (p : List Char) : List Char :=
  if p.getLast? = some '/' then p ++ ['*']
  else
    match (segsOf p).reverse with
    | [] => p
    | l :: rA =>
      if '*' ∈ l then p
      else joinSegs (rA.reverse ++ ['*' :: (l ++ ['*'])])

/-- Domain on which the last-component rule acts verbatim: the final
segment is a normal component (non-empty, not `.` or `..`) and is not
directly preceded by a segment that path normalisation collapses (a
mid-path empty or `.` segment) — the two protected leading segments are
allowed: the root of an absolute path with a single name (`/x`) and the
leading `.` of a relative path with a single name (`./x`). -/
def goodTail (p : List Char) : Bool :=
  match (segsOf p).reverse with
  | [] => false
  | l :: rA =>
    (l != [] && l != ['.'] && l != ['.', '.']) &&
    (match rA with
     | [] => true
     | pen :: rA2 =>
       ((pen != [] && pen != ['.']) || (pen == [] && rA2 == [])) ||
         (pen == ['.'] && rA2 == []))

/-! ## Strings: lowercasing and substring containment

Rust `str::to_lowercase` and `char::is_uppercase` restricted to ASCII (the
inputs reasoned about here); `str::contains` is substring containment. -/

def lowerL (l : List Char) : List Char := l.map Char.toLower

/-- `needle` occurs at the start of the second list. -/
def isLeadOf : List Char → List Char → Bool
  | [], _ => true
  | _ :: _, [] => false
  | a :: as, b :: bs => a == b && isLeadOf as bs

/-- Rust `str::contains`: `needle` occurs somewhere in `hay`. -/
def containsSub (hay needle : List Char) : Bool :=
  match hay with
  | [] => isLeadOf needle []
  | _ :: t => isLeadOf needle hay || containsSub t needle

/-! ## Model of the external `glob` crate (`glob_with`, `MatchOptions`)

Restricted to the pattern constructs the suggestion engine produces:
literal characters and `*` (which, with `require_literal_separator:
false`, spans separators).  `require_literal_leading_dot` makes a name
starting with `.` match only a pattern starting with a literal `.`.
Patterns with a `**` run inside a larger segment fail to parse
(`PatternError`: recursive wildcards must form a single path component). -/

structure MatchOptions where
  case_sensitive : Bool
  require_literal_separator : Bool
  require_literal_leading_dot : Bool
deriving DecidableEq

def globCore : List Char → List Char → Bool
  | [], n => n.isEmpty
  | p :: ps, n =>
    if p = '*' then n.tails.any fun suf => globCore ps suf
    else
      match n with
      | [] => false
      | c :: ns => p == c && globCore ps ns

def globMatch (opts : MatchOptions) (pattern name : List Char) : Bool :=
  let dotOk :=
    if opts.require_literal_leading_dot && (name.head? == some '.') then
      pattern.head? == some '.'
    else true
  let core :=
    if opts.case_sensitive then globCore pattern name
    else globCore (lowerL pattern) (lowerL name)
  dotOk && core

def hasAdjStars : List Char → Bool
  | [] => false
  | [_] => false
  | a :: b :: t => (a == '*' && b == '*') || hasAdjStars (b :: t)

/-- Whether `Pattern::new` accepts the pattern. -/
def patternOk (p : List Char) : Bool :=
  (segsOf p).all fun s => s == ['*', '*'] || !(hasAdjStars s)

/-! ## The filesystem-backed feeder (`DirItems`, src/feeders.rs lines 94-145)

A query runs against a snapshot `FSM` of the environment: the ordered
entries the glob walk enumerates (`errEntry` models a `GlobError` item
produced when a directory could not be read), a metadata oracle (`none`
when metadata cannot be read — the source calls `.unwrap()` on it), a
canonicalisation oracle, and the home directory.  A result of `none`
models a panic; `some results` is a normal return. -/

inductive GlobEntry where
  | errEntry
  | okEntry (path : List Char)
deriving DecidableEq

structure FSM where
  entries : List GlobEntry
  metadata : List Char → Option Bool
  canonical : List Char → Option (List Char)
  home : Option (List Char)

inductive DirItemType where
  | dirOnly
  | allItems
deriving DecidableEq

structure DirItems where
  dir_item_type : DirItemType
  use_full_paths : Bool
deriving DecidableEq

/-- The `MatchOptions` the source builds (lines 108-112): case sensitivity
iff the query text has an uppercase character; separators need not be
literal; a leading dot must be literal. -/
def matchOptionsOf (text : List Char) : MatchOptions :=
  { case_sensitive := text.any Char.isUpper
    require_literal_separator := false
    require_literal_leading_dot := true }

/-- Lines 96-104: empty text becomes `./`; text starting with `~` has every
`~` replaced by the home directory (`home_dir().unwrap()` panics when
there is none); otherwise the text is used verbatim. -/
def resolveText (fs : FSM) (text : List Char) : Option (List Char) :=
  if text = [] then some ['.', '/']
  else if text.head? = some '~' then
    match fs.home with
    | none => none
    | some h => some ((text.map fun c => if c = '~' then h else [c]).flatten)
  else some text

/-- The entries `glob_with` yields for a pattern: error items pass through,
path items are kept when they match. -/
def globRun (fs : FSM) (opts : MatchOptions) (pattern : List Char) : List GlobEntry :=
  fs.entries.filter fun e =>
    match e with
    | .errEntry => true
    | .okEntry n => globMatch opts pattern n

def keepEntry (di : DirItems) (isDir : Bool) : Bool :=
  match di.dir_item_type with
  | .dirOnly => isDir
  | .allItems => true

/-- The string an entry is rendered to (line 128-137): canonicalised (with
`unwrap`, so `none` is a panic) when `use_full_paths` is set. -/
def displayOf (di : DirItems) (fs : FSM) (p : List Char) : Option (List Char) :=
  if di.use_full_paths then fs.canonical p else some p

/-- The lazy iterator pipeline of lines 114-140, consuming glob entries
until `need` filtered-and-mapped results have been produced (Rust
iterators evaluate no further than `skip`/`take` demand): error entries
are dropped by the first filter; a path entry reads metadata with
`unwrap` (`none` = panic), is dropped unless `keepEntry` holds, and is
otherwise rendered. -/
def consumeEntries (di : DirItems) (fs : FSM) : List GlobEntry → Nat → Option (List (List Char))
  | _, 0 => some []
  | [], _ + 1 => some []
  | .errEntry :: rest, n + 1 => consumeEntries di fs rest (n + 1)
  | .okEntry p :: rest, n + 1 =>
    (fs.metadata p).bind fun d =>
      if keepEntry di d then
        (displayOf di fs p).bind fun s => (consumeEntries di fs rest n).map (s :: ·)
      else consumeEntries di fs rest (n + 1)

/-- The same pipeline run to exhaustion (no pagination). -/
def processAllEntries (di : DirItems) (fs : FSM) : List GlobEntry → Option (List (List Char))
  | [] => some []
  | .errEntry :: rest => processAllEntries di fs rest
  | .okEntry p :: rest =>
    (fs.metadata p).bind fun d =>
      if keepEntry di d then
        (displayOf di fs p).bind fun s => (processAllEntries di fs rest).map (s :: ·)
      else processAllEntries di fs rest

/-- `DirItems::query` (lines 95-144).  `none` models a panic; a malformed
glob pattern returns the empty list. -/
def DirItems.query (di : DirItems) (fs : FSM) (text : List Char)
    (position limit : Nat) : Option (List (List Char)) :=
  (resolveText fs text).bind fun p0 =>
    if patternOk (add_glob p0) then
      (consumeEntries di fs (globRun fs (matchOptionsOf text) (add_glob p0))
          (position + limit)).map
        fun l => (l.drop position).take limit
    else some []

/-- `DirItems::query` without the `skip`/`take` pagination: the full
result list. -/
def fullResults (di : DirItems) (fs : FSM) (text : List Char) : Option (List (List Char)) :=
  (resolveText fs text).bind fun p0 =>
    if patternOk (add_glob p0) then
      processAllEntries di fs (globRun fs (matchOptionsOf text) (add_glob p0))
    else some []

/-! ## The list-based feeder (`impl Feeder for Vec<T>`, lines 275-284)

Items are modelled by their display strings (`format!("{}", x)`). -/

/-- The unpaginated filter: keep items whose lowercased display string
contains the query text as typed. -/
def vecFull (items : List (List Char)) (text : List Char) : List (List Char) :=
  items.filter fun x => containsSub (lowerL x) text

/-- `Vec::query`: filter then `skip position`, `take limit`. -/
def vecQuery (items : List (List Char)) (text : List Char)
    (position limit : Nat) : List (List Char) :=
  ((vecFull items text).drop position).take limit

/-- Modelled from the spec's words ("case-folded substring containment"):
keep items whose lowercase form contains the lowercased query text. -/
def vecQuerySpec (items : List (List Char)) (text : List Char)
    (position limit : Nat) : List (List Char) :=
  (((items.filter fun x => containsSub (lowerL x) (lowerL text)).drop position).take limit)

/-! ## The form aggregator (`FormView`, src/form.rs)

`Field2` and `FieldErrors` are imported by form.rs but their definitions
are not in the sources at hand. -/

/-- A `Result`-shaped type standing for Rust `Result<A, E>`. -/
inductive Res (E A : Type) where
  | ok (value : A)
  | err (error : E)
deriving DecidableEq

/-- Modelled from the spec: `FieldErrors` is "the list of error messages
for that field" (§3); a field's validation at submit time yields either a
coerced value or that list. -/
abbrev FieldErrors := List String

/-- Modelled from the spec: `Field2` carries a label (its identity,
"stable for the field's lifetime"), the outcome its `validate` produces
for the current live value, and the command-line argument `clap_arg`
derives from it (§6, the non-interactive boundary).  The value type `V`
stands for `serde_json::Value`. -/
structure FieldM (V : Type) where
  label : String
  result : Res FieldErrors V
  clap_arg : String
deriving DecidableEq

/-- `FormErrors = HashMap<String, FieldErrors>` and the `serde_json` data
map, modelled as association lists with last-write-wins insert. -/
def insertA (k : String) (v : α) : List (String × α) → List (String × α)
  | [] => [(k, v)]
  | (k2, v2) :: rest => if k = k2 then (k, v) :: rest else (k2, v2) :: insertA k v rest

/-- One iteration of the validation loop (form.rs lines 164-181). -/
def valStep (acc : List (String × V) × List (String × FieldErrors)) (f : FieldM V) :
    List (String × V) × List (String × FieldErrors) :=
  match f.result with
  | .ok v => (insertA f.label v acc.1, acc.2)
  | .err e => (acc.1, insertA f.label e acc.2)

/-- `FormView::validate`'s loop and final branch (lines 160-187): insert
each field's outcome into the data or error map, then return `Ok(data)`
iff the error map is empty. -/
def validateFields (fields : List (FieldM V)) :
    Res (List (String × FieldErrors)) (List (String × V)) :=
  let de := fields.foldl valStep ([], [])
  if de.2 = [] then .ok de.1 else .err de.2

/-- `FormView` (lines 24-32): the dialog's children (the appended fields),
the `u8` field counter (kept as a `Nat` below `256`; `+= 1` wraps at
`256` as `u8` addition does), and the presence of the two callbacks. -/
structure FormViewM (V : Type) where
  children : List (FieldM V)
  field_count : Nat
  on_submit : Bool
  on_cancel : Bool
deriving DecidableEq

def FormViewM.new {V : Type} : FormViewM V :=
  { children := [], field_count := 0, on_submit := false, on_cancel := false }

/-- `FormView::field` (lines 53-72): append the field as a child and
increment the `u8` counter. -/
def FormViewM.field (fm : FormViewM V) (f : FieldM V) : FormViewM V :=
  { fm with
    children := fm.children ++ [f]
    field_count := (fm.field_count + 1) % 256 }

/-- `FormView::validate` (lines 160-187): iterate `idx in 0..field_count`
over the children (for every reachable form `field_count ≤ children.length`,
so `get_child(idx).unwrap()` is the first `field_count` children). -/
def FormViewM.validate (fm : FormViewM V) :
    Res (List (String × FieldErrors)) (List (String × V)) :=
  validateFields (fm.children.take fm.field_count)

/-- `FormView::fields2clap_args` (lines 116-131): the clap args of the
first `field_count` children. -/
def FormViewM.fields2clap_args (fm : FormViewM V) : List String :=
  (fm.children.take fm.field_count).map FieldM.clap_arg

/-- The callbacks an event handler can hand back to the host. -/
inductive CBM (V : Type) where
  | submit (data : List (String × V))
  | cancel
deriving DecidableEq

/-- `cursive::EventResult`. -/
inductive EvRes (V : Type) where
  | ignored
  | consumed (cb : Option (CBM V))
deriving DecidableEq

/-- Observable outcome of one event dispatch: the `EventResult`, how many
times `validate` ran, and which per-field errors were routed to fields
for inline display (`show_errors`' effect). -/
structure StepOut (V : Type) where
  res : EvRes V
  validations : Nat
  routed : List (String × FieldErrors)
deriving DecidableEq

/-- `FormView::event_submit` (lines 249-262): validate; on success hand
back the on-submit callback (when present) with the data; on failure
consume the event with no callback — `show_errors` is not called and its
body is commented out, so nothing is routed. -/
def FormViewM.event_submit (fm : FormViewM V) : StepOut V :=
  match fm.validate with
  | .ok d =>
    { res := .consumed (if fm.on_submit then some (.submit d) else none)
      validations := 1
      routed := [] }
  | .err _ =>
    { res := .consumed none
      validations := 1
      routed := [] }

/-- `FormView::event_cancel` (lines 264-269): hand back the on-cancel
callback when present; validation does not run. -/
def FormViewM.event_cancel (fm : FormViewM V) : StepOut V :=
  { res := .consumed (if fm.on_cancel then some .cancel else none)
    validations := 0
    routed := [] }

inductive EventM where
  | mousePress (left : Bool)
  | keyEnter
  | ctrlF
  | other
deriving DecidableEq

/-- `cursive::views::DialogFocus`: button 0 is Cancel, button 1 is
Submit (the order they are added in `FormView::new`). -/
inductive DialogFocusM where
  | content
  | button (idx : Nat)
deriving DecidableEq

/-- `ViewWrapper::wrap_on_event` (lines 281-314).  The inner dialog is
external: `focus` is the dialog focus at the moment the handler inspects
it (for a mouse press, after the event was forwarded to the inner view;
for Enter, the current focus), and `innerRes` is the result of forwarding
the event to the inner view on the fall-through paths. -/
def FormViewM.wrap_on_event (fm : FormViewM V) (ev : EventM) (focus : DialogFocusM)
    (innerRes : EvRes V) : StepOut V :=
  match ev with
  | .mousePress left =>
    if left then
      match focus with
      | .button 0 => fm.event_cancel
      | .button 1 => fm.event_submit
      | _ => { res := .ignored, validations := 0, routed := [] }
    else { res := .ignored, validations := 0, routed := [] }
  | .keyEnter =>
    match focus with
    | .button 0 => fm.event_cancel
    | .button 1 => fm.event_submit
    | _ => { res := innerRes, validations := 0, routed := [] }
  | .ctrlF => fm.event_submit
  | .other => { res := innerRes, validations := 0, routed := [] }

/-- Building a form by appending a list of fields to `FormView::new()`. -/
def appendAll (fields : List (FieldM V)) : FormViewM V :=
  fields.foldl FormViewM.field FormViewM.new

/-- `FormView::on_cancel` (lines 104-110): registers the cancel callback. -/
def FormViewM.withOnCancel (fm : FormViewM V) : FormViewM V :=
  { fm with on_cancel := true }

/-- `FormView::on_submit` (lines 85-91): registers the submit callback. -/
def FormViewM.withOnSubmit (fm : FormViewM V) : FormViewM V :=
  { fm with on_submit := true }

/-- Whether a field's validation succeeds. -/
def FieldM.passes (f : FieldM V) : Bool :=
  match f.result with
  | .ok _ => true
  | .err _ => false

/-- The data-map entry a field contributes when it validates. -/
def okPair (f : FieldM V) : Option (String × V) :=
  match f.result with
  | .ok v => some (f.label, v)
  | .err _ => none

/-- The error-map entry a field contributes when it fails. -/
def errPair (f : FieldM V) : Option (String × FieldErrors) :=
  match f.result with
  | .ok _ => none
  | .err e => some (f.label, e)

/-! ## Concrete fixtures used by witnesses and counterexamples -/

def diAll : DirItems := { dir_item_type := .allItems, use_full_paths := false }

/-- A directory holding `Abc` and `abc`, all metadata readable. -/
def fsCase : FSM :=
  { entries := [.okEntry ['A', 'b', 'c'], .okEntry ['a', 'b', 'c']]
    metadata := fun _ => some false
    canonical := fun p => some p
    home := none }

/-- A directory whose single matching entry has unreadable metadata. -/
def fsPanic : FSM :=
  { entries := [.okEntry ['x']]
    metadata := fun _ => none
    canonical := fun p => some p
    home := none }

/-- Three readable matches and one glob error item. -/
def fsSlice : FSM :=
  { entries := [.okEntry ['a', 'x'], .errEntry, .okEntry ['a', 'y'], .okEntry ['a', 'z']]
    metadata := fun _ => some false
    canonical := fun p => some p
    home := none }

def okField (lab : String) : FieldM Unit :=
  { label := lab, result := .ok (), clap_arg := lab }

def errField (lab : String) (msgs : List String) : FieldM Unit :=
  { label := lab, result := .err msgs, clap_arg := lab }

/-- A form with 256 appended fields carrying distinct labels
(`""`, `"a"`, `"aa"`, ...). -/
def bigForm : FormViewM Unit :=
  appendAll ((List.range 256).map fun i => okField (String.mk (List.replicate i 'a')))

/-- A two-field form whose second field fails validation. -/
def badForm : FormViewM Unit :=
  appendAll [okField "src", errField "dst" ["required"]]

/-- A two-field form that validates successfully. -/
def goodForm : FormViewM Unit :=
  appendAll [okField "src", okField "dst"]

/-- A one-field form with an on-cancel callback registered. -/
def cancelForm : FormViewM Unit :=
  (appendAll [okField "f"]).withOnCancel

/-! ## Lemmas about the path-segment model -/

theorem segsOf_nil : segsOf [] = [[]] := rfl

theorem segsOf_cons_slash (rest : List Char) :
    segsOf ('/' :: rest) = [] :: segsOf rest := by
  simp [segsOf]

theorem segsOf_ne_nil (p : List Char) : segsOf p ≠ [] := by
  match p with
  | [] => simp [segsOf]
  | a :: rest =>
    rw [segsOf]
    split
    · simp
    · split <;> simp

theorem segsOf_cons (a : Char) (rest : List Char) (ha : a ≠ '/')
    (s : List Char) (ss : List (List Char)) (hp : segsOf rest = s :: ss) :
    segsOf (a :: rest) = (a :: s) :: ss := by
  rw [segsOf, if_neg ha, hp]

theorem joinSegs_cons_cons (s t : List Char) (ss : List (List Char)) :
    joinSegs (s :: t :: ss) = s ++ '/' :: joinSegs (t :: ss) := rfl

/-- `segsOf` distributes over a slash splice. -/
theorem segsOf_append_slash (x y : List Char) :
    segsOf (x ++ '/' :: y) = segsOf x ++ segsOf y := by
  induction x with
  | nil => simp [segsOf_cons_slash, segsOf_nil]
  | cons a x ih =>
    by_cases ha : a = '/'
    · subst ha
      rw [List.cons_append, segsOf_cons_slash, segsOf_cons_slash, ih, List.cons_append]
    · rcases hx : segsOf x with _ | ⟨s, ss⟩
      · exact absurd hx (segsOf_ne_nil x)
      · rcases hxy : segsOf (x ++ '/' :: y) with _ | ⟨t, ts⟩
        · exact absurd hxy (segsOf_ne_nil _)
        · rw [List.cons_append, segsOf_cons a _ ha t ts hxy,
            segsOf_cons a x ha s ss hx]
          rw [ih, hx] at hxy
          have ht : t = s := List.head_eq_of_cons_eq hxy.symm
          have hts : ts = ss ++ segsOf y := List.tail_eq_of_cons_eq hxy.symm
          rw [ht, hts, List.cons_append]

/-- A string without `'/'` is a single segment. -/
theorem segsOf_no_slash (w : List Char) (h : '/' ∉ w) : segsOf w = [w] := by
  induction w with
  | nil => rfl
  | cons a w ih =>
    have ha : a ≠ '/' := fun he => h (he ▸ List.mem_cons_self a w)
    have hw : '/' ∉ w := fun hm => h (List.mem_cons_of_mem a hm)
    rw [segsOf_cons a w ha w [] (ih hw)]

theorem join_segsOf (p : List Char) : joinSegs (segsOf p) = p := by
  induction p with
  | nil => rfl
  | cons a p ih =>
    rcases hp : segsOf p with _ | ⟨s, ss⟩
    · exact absurd hp (segsOf_ne_nil p)
    · rw [hp] at ih
      by_cases ha : a = '/'
      · subst ha
        rw [segsOf_cons_slash, hp, joinSegs_cons_cons, List.nil_append, ih]
      · rw [segsOf_cons a p ha s ss hp]
        rcases ss with _ | ⟨s2, ss⟩
        · simpa [joinSegs] using congrArg (a :: ·) ih
        · rw [joinSegs_cons_cons] at ih ⊢
          rw [List.cons_append, ih]

/-- No segment contains a slash. -/
theorem no_slash_of_mem_segsOf (p : List Char) (s : List Char) (hs : s ∈ segsOf p) :
    '/' ∉ s := by
  induction p generalizing s with
  | nil => simp [segsOf] at hs; simp [hs]
  | cons a p ih =>
    by_cases ha : a = '/'
    · subst ha
      rw [segsOf_cons_slash] at hs
      rcases List.mem_cons.mp hs with hs | hs
      · simp [hs]
      · exact ih s hs
    · rcases hp : segsOf p with _ | ⟨t, ts⟩
      · exact absurd hp (segsOf_ne_nil p)
      · rw [segsOf_cons a p ha t ts hp] at hs
        rcases List.mem_cons.mp hs with hs | hs
        · subst hs
          intro hm
          rcases List.mem_cons.mp hm with hm | hm
          · exact ha hm.symm
          · exact ih t (hp ▸ List.mem_cons_self t ts) hm
        · exact ih s (hp ▸ List.mem_cons_of_mem t hs)

/-- Appending slash-free text extends the final segment. -/
theorem segsOf_append_noslash (w : List Char) (hw : '/' ∉ w) :
    ∀ (x : List Char) (A : List (List Char)) (l : List Char),
      segsOf x = A ++ [l] → segsOf (x ++ w) = A ++ [l ++ w] := by
  intro x
  induction x with
  | nil =>
    intro A l h
    rw [segsOf_nil] at h
    have hA : A = [] ∧ l = [] := by
      rcases A with _ | ⟨a0, A⟩
      · simpa using h.symm
      · rcases A <;> simp_all
    obtain ⟨rfl, rfl⟩ := hA
    simpa using segsOf_no_slash w hw
  | cons a x ih =>
    intro A l h
    by_cases ha : a = '/'
    · subst ha
      rw [segsOf_cons_slash] at h
      rcases A with _ | ⟨a0, A⟩
      · exfalso
        have : segsOf x = [] := List.tail_eq_of_cons_eq h.symm |>.symm
        exact segsOf_ne_nil x this
      · have ha0 : a0 = [] := (List.head_eq_of_cons_eq h).symm
        have hx : segsOf x = A ++ [l] := List.tail_eq_of_cons_eq h
        rw [List.cons_append, segsOf_cons_slash, ih A l hx, ha0, List.cons_append]
    · rcases hx : segsOf x with _ | ⟨s, ss⟩
      · exact absurd hx (segsOf_ne_nil x)
      · rw [segsOf_cons a x ha s ss hx] at h
        rcases A with _ | ⟨a0, A⟩
        · have hl : l = a :: s := (List.head_eq_of_cons_eq h).symm
          have hss : ss = [] := List.tail_eq_of_cons_eq h
          subst hss
          have hxw : segsOf (x ++ w) = [] ++ [s ++ w] := ih [] s hx
          rw [List.cons_append, segsOf_cons a _ ha (s ++ w) [] (by simpa using hxw)]
          simp [hl]
        · have ha0 : a0 = a :: s := (List.head_eq_of_cons_eq h).symm
          have hss : ss = A ++ [l] := List.tail_eq_of_cons_eq h
          have hxw : segsOf (x ++ w) = s :: (A ++ [l ++ w]) := by
            have h2 : segsOf x = (s :: A) ++ [l] := by rw [hx, hss]; rfl
            have := ih (s :: A) l h2
            simpa using this
          rw [List.cons_append, segsOf_cons a _ ha s (A ++ [l ++ w]) hxw, ha0]
          rfl

theorem joinSegs_append_single (A : List (List Char)) (w : List Char) (hA : A ≠ []) :
    joinSegs (A ++ [w]) = joinSegs A ++ '/' :: w := by
  induction A with
  | nil => exact absurd rfl hA
  | cons a A ih =>
    rcases A with _ | ⟨b, B⟩
    · rfl
    · calc joinSegs ((a :: b :: B) ++ [w])
          = a ++ '/' :: joinSegs ((b :: B) ++ [w]) := by
            rw [List.cons_append]
            exact joinSegs_cons_cons a _ _
        _ = a ++ '/' :: (joinSegs (b :: B) ++ '/' :: w) := by rw [ih (by simp)]
        _ = (a ++ '/' :: joinSegs (b :: B)) ++ '/' :: w := by simp
        _ = joinSegs (a :: b :: B) ++ '/' :: w := by rw [joinSegs_cons_cons]

theorem joinSegs_singleton (w : List Char) : joinSegs [w] = w := rfl

/-- Last character of a path whose final segment is non-empty. -/
theorem getLast?_of_seg_decomp (p : List Char) (A : List (List Char)) (l : List Char)
    (h : segsOf p = A ++ [l]) (hl : l ≠ []) : p.getLast? = l.getLast? := by
  have hp : p = joinSegs (A ++ [l]) := by rw [← h, join_segsOf]
  rcases l with _ | ⟨c, l2⟩
  · exact absurd rfl hl
  rcases A with _ | ⟨a0, A⟩
  · simp [hp, joinSegs_singleton]
  · rw [hp, joinSegs_append_single _ _ (by simp),
      List.getLast?_append_of_ne_nil _ (by simp), List.getLast?_cons_cons]

/-- A path ends in a slash iff its final segment is empty (and it is non-empty). -/
theorem endsSlash_iff (p : List Char) (A : List (List Char)) (l : List Char)
    (h : segsOf p = A ++ [l]) :
    p.getLast? = some '/' ↔ (l = [] ∧ A ≠ []) := by
  constructor
  · intro he
    by_cases hl : l = []
    · refine ⟨hl, ?_⟩
      intro hA
      subst hA hl
      have hp : p = [] := by
        have := join_segsOf p
        rw [h] at this
        simpa [joinSegs_singleton] using this.symm
      rw [hp] at he
      simp at he
    · exfalso
      have h2 := getLast?_of_seg_decomp p A l h hl
      have h3 : l.getLast? = some '/' := h2.symm.trans he
      have hsl : '/' ∉ l := no_slash_of_mem_segsOf p l (by rw [h]; simp)
      have h4 : l.getLast hl = '/' := by
        rwa [List.getLast?_eq_getLast_of_ne_nil hl, Option.some_inj] at h3
      exact hsl (h4 ▸ List.getLast_mem hl)
  · rintro ⟨rfl, hA⟩
    have hp : p = joinSegs A ++ ['/'] := by
      have := join_segsOf p
      rw [h, joinSegs_append_single A [] hA] at this
      exact this.symm
    rw [hp]
    simp

/-- Every character of a join is a slash or lies in some segment. -/
theorem mem_joinSegs (A : List (List Char)) (c : Char) (hc : c ∈ joinSegs A) :
    c = '/' ∨ ∃ s ∈ A, c ∈ s := by
  induction A with
  | nil => simp [joinSegs] at hc
  | cons a A ih =>
    rcases A with _ | ⟨b, B⟩
    · exact Or.inr ⟨a, by simp, hc⟩
    · rw [joinSegs_cons_cons] at hc
      rcases List.mem_append.mp hc with hc | hc
      · exact Or.inr ⟨a, by simp, hc⟩
      · rcases List.mem_cons.mp hc with hc | hc
        · exact Or.inl hc
        · rcases ih hc with h | ⟨s, hs, hcs⟩
          · exact Or.inl h
          · exact Or.inr ⟨s, List.mem_cons_of_mem a hs, hcs⟩

/-! ## Lemmas about `trimJunk`, `compLastStr`, `pathPop` -/

theorem trimJunk_nil : trimJunk [] = [] := rfl

theorem trimJunk_cons_keep (s : List Char) (X : List (List Char))
    (h : ¬(s = [] ∨ s = ['.'])) : trimJunk (s :: X) = s :: X := by
  rw [trimJunk, if_neg h]

theorem trimJunk_eq_nil_mem (X : List (List Char)) (h : trimJunk X = []) :
    ∀ s ∈ X, s = [] ∨ s = ['.'] := by
  induction X with
  | nil => simp
  | cons a X ih =>
    rw [trimJunk] at h
    by_cases ha : a = [] ∨ a = ['.']
    · rw [if_pos ha] at h
      intro s hs
      rcases List.mem_cons.mp hs with rfl | hs
      · exact ha
      · exact ih h s hs
    · rw [if_neg ha] at h
      simp at h

theorem trimJunk_head_mem (X : List (List Char)) (s : List Char)
    (X2 : List (List Char)) (h : trimJunk X = s :: X2) : s ∈ X := by
  induction X with
  | nil => rw [trimJunk_nil] at h; simp at h
  | cons a X ih =>
    rw [trimJunk] at h
    by_cases ha : a = [] ∨ a = ['.']
    · rw [if_pos ha] at h
      exact List.mem_cons_of_mem a (ih h)
    · rw [if_neg ha] at h
      exact List.mem_cons.mpr (Or.inl (List.head_eq_of_cons_eq h).symm)

theorem segsOf_decomp (p : List Char) : ∃ A l, segsOf p = A ++ [l] := by
  rcases List.eq_nil_or_concat (segsOf p) with h | ⟨A, l, h⟩
  · exact absurd h (segsOf_ne_nil p)
  · exact ⟨A, l, by rw [h, List.concat_eq_append]⟩

theorem compLastStr_of_last_normal (p : List Char) (A : List (List Char)) (l : List Char)
    (h : segsOf p = A ++ [l]) (hne : l ≠ []) (hdot : l ≠ ['.']) :
    compLastStr p = some l := by
  have hp : p ≠ [] := by
    intro hpe
    subst hpe
    rw [segsOf_nil] at h
    rcases A with _ | ⟨a0, A⟩
    · simp at h
      exact hne h
    · have := congrArg List.length h
      simp at this
  have hrev : (segsOf p).reverse = l :: A.reverse := by rw [h]; simp
  rw [compLastStr, if_neg hp, hrev, trimJunk_cons_keep l _ (not_or.mpr ⟨hne, hdot⟩)]

theorem fileNameOf_of_last_normal (p : List Char) (A : List (List Char)) (l : List Char)
    (h : segsOf p = A ++ [l]) (hne : l ≠ []) (hdot : l ≠ ['.'])
    (hdd : l ≠ ['.', '.']) : fileNameOf p = some l := by
  have hrev : (segsOf p).reverse = l :: A.reverse := by rw [h]; simp
  rw [fileNameOf, hrev, trimJunk_cons_keep l _ (not_or.mpr ⟨hne, hdot⟩)]
  exact if_neg hdd

theorem compLastStr_eq_none (p : List Char) (h : compLastStr p = none) : p = [] := by
  by_contra hne
  rw [compLastStr, if_neg hne] at h
  rcases htr : trimJunk (segsOf p).reverse with _ | ⟨s, X⟩
  · rw [htr] at h
    by_cases hh : p.head? = some '/' <;> simp [hh] at h
  · rw [htr] at h
    simp at h

theorem compLastStr_no_slash (p l : List Char) (h : compLastStr p = some l)
    (hroot : l ≠ ['/']) : '/' ∉ l := by
  by_cases hp : p = []
  · subst hp
    rw [compLastStr] at h
    simp at h
  · rw [compLastStr, if_neg hp] at h
    rcases htr : trimJunk (segsOf p).reverse with _ | ⟨s, X⟩
    · rw [htr] at h
      by_cases hh : p.head? = some '/'
      · rw [if_pos hh] at h
        simp at h
        exact absurd h.symm hroot
      · rw [if_neg hh] at h
        simp at h
        rw [← h]
        decide
    · rw [htr] at h
      simp at h
      subst h
      exact no_slash_of_mem_segsOf p s (List.mem_reverse.mp (trimJunk_head_mem _ _ _ htr))

theorem compLastStr_root_no_star (p : List Char) (h : compLastStr p = some ['/']) :
    '*' ∉ p := by
  by_cases hp : p = []
  · subst hp; simp
  · rw [compLastStr, if_neg hp] at h
    rcases htr : trimJunk (segsOf p).reverse with _ | ⟨s, X⟩
    · intro hstar
      have hmem := trimJunk_eq_nil_mem _ htr
      rcases mem_joinSegs (segsOf p) '*' (by rw [join_segsOf]; exact hstar) with he | ⟨s, hs, hss⟩
      · exact absurd he (by decide)
      · rcases hmem s (List.mem_reverse.mpr hs) with rfl | rfl <;> simp at hss
    · rw [htr] at h
      simp at h
      have hns := no_slash_of_mem_segsOf p s (List.mem_reverse.mp (trimJunk_head_mem _ _ _ htr))
      rw [h] at hns
      exact absurd (by simp : '/' ∈ (['/'] : List Char)) hns

theorem pathPop_of_decomp_rel (p : List Char) (A : List (List Char)) (l : List Char)
    (hhead : ¬ p.head? = some '/') (hcur : ¬ (segsOf p).head? = some ['.'])
    (h : segsOf p = A ++ [l]) (hl : ¬(l = [] ∨ l = ['.']))
    (hA : trimJunk A.reverse = A.reverse) :
    pathPop p = joinSegs A := by
  have hrev : (segsOf p).reverse = l :: A.reverse := by rw [h]; simp
  rw [pathPop, if_neg hhead, if_neg hcur, hrev, trimJunk_cons_keep l _ hl]
  simp only [List.tail_cons, hA, List.reverse_reverse]

theorem pathPop_of_decomp_abs (q : List Char) (A : List (List Char)) (l : List Char)
    (h : segsOf q = A ++ [l]) (hl : ¬(l = [] ∨ l = ['.']))
    (hA : trimJunk A.reverse = A.reverse) :
    pathPop ('/' :: q) = '/' :: joinSegs A := by
  have hrev : (segsOf q).reverse = l :: A.reverse := by rw [h]; simp
  rw [pathPop, if_pos (by simp)]
  simp only [List.tail_cons]
  rw [hrev, trimJunk_cons_keep l _ hl]
  simp only [List.tail_cons, hA, List.reverse_reverse]

theorem pathPop_of_decomp_curdir (p : List Char) (A2 : List (List Char)) (l : List Char)
    (h : segsOf p = (['.'] :: A2) ++ [l]) (hl : ¬(l = [] ∨ l = ['.']))
    (hA : trimJunk A2.reverse = A2.reverse) :
    pathPop p = curDirRender A2 := by
  have hcur : (segsOf p).head? = some ['.'] := by rw [h]; rfl
  have hhead : ¬ p.head? = some '/' := by
    intro hc
    obtain ⟨q, hpq⟩ : ∃ q, p = '/' :: q := by
      rcases hp2 : p with _ | ⟨c, q⟩
      · rw [hp2] at hc
        simp at hc
      · rw [hp2] at hc
        simp at hc
        exact ⟨q, by rw [hc]⟩
    rw [hpq, segsOf_cons_slash] at hcur
    simp at hcur
  rw [pathPop, if_neg hhead, if_pos hcur]
  have htail : (segsOf p).tail = A2 ++ [l] := by
    rw [h]
    rfl
  rw [htail]
  have hrev2 : (A2 ++ [l]).reverse = l :: A2.reverse := by simp
  rw [hrev2, trimJunk_cons_keep l _ hl]
  simp only [List.tail_cons, hA, List.reverse_reverse]

theorem joinSegs_concat_getLast? (B : List (List Char)) (pen : List Char) (hp : pen ≠ []) :
    (joinSegs (B ++ [pen])).getLast? = pen.getLast? := by
  rcases B with _ | ⟨b, B⟩
  · simp [joinSegs_singleton]
  · rw [joinSegs_append_single _ _ (by simp)]
    rcases pen with _ | ⟨c, pen⟩
    · exact absurd rfl hp
    · rw [List.getLast?_append_of_ne_nil _ (by simp), List.getLast?_cons_cons]

theorem joinSegs_concat_ne_nil (B : List (List Char)) (pen : List Char) (hp : pen ≠ []) :
    joinSegs (B ++ [pen]) ≠ [] := by
  intro h
  have h2 := joinSegs_concat_getLast? B pen hp
  rw [h] at h2
  rcases pen with _ | ⟨c, pen⟩
  · exact hp rfl
  · have h3 : (c :: pen).getLast?.isSome := by
      rw [List.getLast?_isSome]
      simp
    rw [← h2] at h3
    simp at h3

/-! ## Branch lemmas for `add_glob` and `add_glob_spec` -/

theorem add_glob_unchanged (p l : List Char) (hns : ¬ p.getLast? = some '/')
    (hcl : compLastStr p = some l) (hst : '*' ∈ l) : add_glob p = p := by
  unfold add_glob
  rw [if_neg hns, hcl]
  show (if '*' ∈ l then p
    else withFileName p (if l = ['/'] then l ++ ['*'] else '*' :: (l ++ ['*']))) = p
  rw [if_pos hst]

theorem add_glob_of_compLast (p l : List Char) (hns : ¬ p.getLast? = some '/')
    (hcl : compLastStr p = some l) (hst : '*' ∉ l) (hroot : l ≠ ['/']) :
    add_glob p = withFileName p ('*' :: (l ++ ['*'])) := by
  unfold add_glob
  rw [if_neg hns, hcl]
  show (if '*' ∈ l then p
    else withFileName p (if l = ['/'] then l ++ ['*'] else '*' :: (l ++ ['*']))) = _
  rw [if_neg hst, if_neg hroot]

theorem add_glob_spec_unchanged (p l : List Char) (rA : List (List Char))
    (hns : ¬ p.getLast? = some '/') (hrev : (segsOf p).reverse = l :: rA)
    (hst : '*' ∈ l) : add_glob_spec p = p := by
  unfold add_glob_spec
  rw [if_neg hns, hrev]
  show (if '*' ∈ l then p else joinSegs (rA.reverse ++ ['*' :: (l ++ ['*'])])) = p
  rw [if_pos hst]

theorem add_glob_spec_of_rev (p l : List Char) (rA : List (List Char))
    (hns : ¬ p.getLast? = some '/') (hrev : (segsOf p).reverse = l :: rA)
    (hst : '*' ∉ l) :
    add_glob_spec p = joinSegs (rA.reverse ++ ['*' :: (l ++ ['*'])]) := by
  unfold add_glob_spec
  rw [if_neg hns, hrev]
  show (if '*' ∈ l then p else joinSegs (rA.reverse ++ ['*' :: (l ++ ['*'])])) = _
  rw [if_neg hst]

theorem withFileName_shape (p w : List Char) (hw : ¬ w.head? = some '/') :
    ∃ x, withFileName p w = x ++ w := by
  have push_shape : ∀ buf, ∃ x, pathPush buf w = x ++ w := by
    intro buf
    unfold pathPush
    rw [if_neg hw]
    by_cases hb : buf = []
    · exact ⟨[], by rw [if_pos hb]; simp⟩
    · rw [if_neg hb]
      by_cases hbl : buf.getLast? = some '/'
      · exact ⟨buf, by rw [if_pos hbl]⟩
      · refine ⟨buf ++ ['/'], ?_⟩
        rw [if_neg hbl]
        simp
  unfold withFileName
  rcases hf : fileNameOf p with _ | s
  · exact push_shape p
  · exact push_shape (pathPop p)

/-- Any path whose final slash-free piece contains a `*` and ends in `*`
is a fixed point of `add_glob`. -/
theorem add_glob_fixed (x w : List Char) (hnsl : '/' ∉ w) (hst : '*' ∈ w)
    (hlast : w.getLast? = some '*') : add_glob (x ++ w) = x ++ w := by
  obtain ⟨A, l, hd⟩ := segsOf_decomp x
  have hw_ne : w ≠ [] := by rintro rfl; simp at hst
  have h2 : segsOf (x ++ w) = A ++ [l ++ w] := segsOf_append_noslash w hnsl x A l hd
  have hlw_ne : l ++ w ≠ [] := by simp [hw_ne]
  have hg : (x ++ w).getLast? = some '*' := by
    rw [getLast?_of_seg_decomp (x ++ w) A (l ++ w) h2 hlw_ne,
      List.getLast?_append_of_ne_nil _ hw_ne]
    exact hlast
  have hns2 : ¬ (x ++ w).getLast? = some '/' := by
    rw [hg]
    decide
  have hstar2 : '*' ∈ l ++ w := List.mem_append_right l hst
  have hldot : l ++ w ≠ ['.'] := by
    intro he
    have h3 : '*' ∈ (['.'] : List Char) := he ▸ hstar2
    simp at h3
  exact add_glob_unchanged (x ++ w) (l ++ w) hns2
    (compLastStr_of_last_normal _ A _ h2 hlw_ne hldot) hstar2

/-! ## Claims C4 and C9: the glob-augmentation rule -/

theorem bool_and_elim {a b : Bool} (h : (a && b) = true) : a = true ∧ b = true := by
  constructor <;> simp_all

theorem bool_or_elim {a b : Bool} (h : (a || b) = true) : a = true ∨ b = true := by
  simpa using h

/-- Claim C4, counterexample: the last-component rule as stated fails on
the input `..`.  Its last path component is `..` (with no wildcard), so
the rule prescribes the wrapped result `*..*`; the code instead appends
the wrapped component after `..` (Rust `file_name()` is `None` for a path
ending in `..`, so `with_file_name` pushes without popping), producing
`../*..*`. -/
theorem c4_counterexample :
    add_glob ['.', '.'] = ['.', '.', '/', '*', '.', '.', '*'] ∧
    add_glob_spec ['.', '.'] = ['*', '.', '.', '*'] ∧
    ¬ add_glob ['.', '.'] = add_glob_spec ['.', '.'] := by
  refine ⟨by decide, by decide, by decide⟩

/-- Claim C4 (amended): the glob-augmentation rule acts on the last path
component exactly as stated — trailing separator appends `*`, a
wildcard-free last component is wrapped as `*<component>*` in place, a
wildcard-bearing one leaves the path unchanged — for every path that ends
with a separator or whose last slash-separated segment is a normal
component (non-empty, not `.` or `..`) whose preceding segment, if any,
is a normal segment, the root of an absolute path (`/x`), or the
protected leading `.` of a relative path (`./x`, where the code yields
`./*x*`); in particular `add_glob "/home/user/xxx" = "/home/user/*xxx*"`
and `add_glob "/home/user/*xxx"` is unchanged.  Outside this domain path
normalisation intervenes (mid-path `//` and `/./` collapse; a final `..`
or `.` is kept and the wrapped component appended after it). -/
theorem c4_last_component_rule (p : List Char)
    (h : p.getLast? = some '/' ∨ goodTail p = true) :
    add_glob p = add_glob_spec p := by
  rcases h with hs | hg
  · unfold add_glob add_glob_spec
    rw [if_pos hs, if_pos hs]
  · obtain ⟨A, l, hd⟩ := segsOf_decomp p
    have hrev : (segsOf p).reverse = l :: A.reverse := by rw [hd]; simp
    unfold goodTail at hg
    rw [hrev] at hg
    have hg2 := bool_and_elim hg
    have hl1 : l ≠ [] := by
      have := bool_and_elim (bool_and_elim hg2.1).1
      simpa using this.1
    have hl2 : l ≠ ['.'] := by
      have := bool_and_elim (bool_and_elim hg2.1).1
      simpa using this.2
    have hns : ¬ p.getLast? = some '/' := by
      rw [endsSlash_iff p A l hd]
      rintro ⟨rfl, -⟩
      exact hl1 rfl
    by_cases hst : '*' ∈ l
    · rw [add_glob_unchanged p l hns (compLastStr_of_last_normal p A l hd hl1 hl2) hst,
        add_glob_spec_unchanged p l A.reverse hns hrev hst]
    · rw [add_glob_spec_of_rev p l A.reverse hns hrev hst]
      have hroot : l ≠ ['/'] := by
        intro he
        have := no_slash_of_mem_segsOf p l (by rw [hd]; simp)
        rw [he] at this
        simp at this
    /- the source path: `with_file_name` pops the file name and pushes. -/
      rw [add_glob_of_compLast p l hns (compLastStr_of_last_normal p A l hd hl1 hl2) hst hroot]
      have hfile : fileNameOf p = some l := by
        refine fileNameOf_of_last_normal p A l hd hl1 hl2 ?_
        intro he
        have := bool_and_elim (bool_and_elim hg2.1).1
        have h3 := bool_and_elim hg2.1
        simp [he] at h3
      unfold withFileName
      rw [hfile]
      show pathPush (pathPop p) ('*' :: (l ++ ['*'])) = _
      have hwhead : ¬ ('*' :: (l ++ ['*'])).head? = some '/' := by simp
      have hArev : A.reverse = [] ∨
          (∃ pen rB, A.reverse = pen :: rB ∧ ¬(pen = [] ∨ pen = ['.'])) ∨
          A = [[]] ∨ A = [['.']] := by
        rcases hAr : A.reverse with _ | ⟨pen, rB⟩
        · exact Or.inl rfl
        · rw [hAr] at hg2
          have hmat := hg2.2
          rcases bool_or_elim hmat with hc | hc
          · rcases bool_or_elim hc with hc2 | hc2
            · refine Or.inr (Or.inl ⟨pen, rB, rfl, ?_⟩)
              have h6 := bool_and_elim hc2
              rintro (he | he) <;> simp [he] at h6
            · have h6 := bool_and_elim hc2
              have hpen : pen = [] := by simpa using h6.1
              have hrB : rB = [] := by simpa using h6.2
              refine Or.inr (Or.inr (Or.inl ?_))
              have h7 : A.reverse = [[]] := by rw [hAr, hpen, hrB]
              have h8 := congrArg List.reverse h7
              simpa using h8
          · have h6 := bool_and_elim hc
            have hpen : pen = ['.'] := by simpa using h6.1
            have hrB : rB = [] := by simpa using h6.2
            refine Or.inr (Or.inr (Or.inr ?_))
            have h7 : A.reverse = [['.']] := by rw [hAr, hpen, hrB]
            have h8 := congrArg List.reverse h7
            simpa using h8
      rcases hArev with hA0 | hApen | hAroot | hAcur
      · -- no preceding segment: p is the single segment l
        have hA : A = [] := by
          have := congrArg List.reverse hA0
          simpa using this
        subst hA
        have hp : p = l := by
          have := join_segsOf p
          rw [hd] at this
          simpa [joinSegs_singleton] using this.symm
        have hphead : ¬ p.head? = some '/' := by
          intro hh
          have hmem : '/' ∈ l := by
            rcases hl : l with _ | ⟨c, l2⟩
            · exact absurd hl hl1
            · rw [hp, hl] at hh
              simp at hh
              rw [hh]
              simp
          exact no_slash_of_mem_segsOf p l (by rw [hd]; simp) hmem
        have hcur2 : ¬ (segsOf p).head? = some ['.'] := by
          rw [hd]
          intro he
          simp only [List.nil_append, List.head?_cons] at he
          exact hl2 (Option.some_inj.mp he)
        rw [pathPop_of_decomp_rel p [] l hphead hcur2 hd (not_or.mpr ⟨hl1, hl2⟩)
          (by simp [trimJunk_nil])]
        show pathPush (joinSegs []) ('*' :: (l ++ ['*'])) = _
        unfold pathPush
        rw [if_neg hwhead, if_pos (show joinSegs [] = [] from rfl)]
        rfl
      · -- a normal preceding segment
        obtain ⟨pen, rB, hAr, hpen⟩ := hApen
        have hA : A = rB.reverse ++ [pen] := by
          have := congrArg List.reverse hAr
          simpa using this
        by_cases hphead : p.head? = some '/'
        · -- absolute path: p = '/' :: q with segsOf q = A.tail ++ [l]
          obtain ⟨q, hpq⟩ : ∃ q, p = '/' :: q := by
            rcases hp2 : p with _ | ⟨c, q⟩
            · rw [hp2] at hphead
              simp at hphead
            · rw [hp2] at hphead
              simp at hphead
              exact ⟨q, by rw [hphead]⟩
          subst hpq
          rw [segsOf_cons_slash] at hd
          obtain ⟨A2, hA2, hq⟩ : ∃ A2, A = [] :: A2 ∧ segsOf q = A2 ++ [l] := by
            rcases hAe : A with _ | ⟨a0, A2⟩
            · rw [hAe] at hd
              simp at hd
              exact absurd hd.2 (segsOf_ne_nil q)
            · rw [hAe] at hd
              have ha0 : a0 = [] := (List.head_eq_of_cons_eq hd).symm
              exact ⟨A2, by rw [ha0], List.tail_eq_of_cons_eq hd⟩
          subst hA2
          -- the preceding segment condition transfers to A2
          have hA2r : trimJunk A2.reverse = A2.reverse := by
            rcases hA2r0 : A2.reverse with _ | ⟨pen2, rB2⟩
            · rfl
            · have hpen2 : pen2 = pen := by
                have h5 : ([] :: A2).reverse = pen2 :: (rB2 ++ [[]]) := by
                  simp [hA2r0]
                rw [hAr] at h5
                exact (List.head_eq_of_cons_eq h5).symm
              rw [trimJunk_cons_keep pen2 rB2 (hpen2 ▸ hpen)]
          rw [pathPop_of_decomp_abs q A2 l hq (not_or.mpr ⟨hl1, hl2⟩) hA2r]
          -- push onto '/' :: joinSegs A2
          have hA2ne : A2 ≠ [] := by
            intro he
            subst he
            have h10 : ([[]] : List (List Char)) = pen :: rB := by simpa using hAr
            exact hpen (Or.inl (List.head_eq_of_cons_eq h10).symm)
          obtain ⟨B2, pen2, hB2⟩ : ∃ B2 pen2, A2 = B2 ++ [pen2] := by
            rcases List.eq_nil_or_concat A2 with he | ⟨B2, pen2, he⟩
            · exact absurd he hA2ne
            · exact ⟨B2, pen2, by rw [he, List.concat_eq_append]⟩
          have hpen2 : pen2 = pen := by
            have h5 : ([] :: A2).reverse = pen2 :: (B2.reverse ++ [[]]) := by
              rw [hB2]
              simp
            rw [hAr] at h5
            exact (List.head_eq_of_cons_eq h5).symm
          have hpen2ne : pen2 ≠ [] := fun he => hpen (Or.inl (hpen2 ▸ he))
          have hjne : joinSegs A2 ≠ [] := hB2 ▸ joinSegs_concat_ne_nil B2 pen2 hpen2ne
          have hjlast : ¬ ('/' :: joinSegs A2).getLast? = some '/' := by
            rcases hj : joinSegs A2 with _ | ⟨c2, j2⟩
            · exact absurd hj hjne
            · rw [List.getLast?_cons_cons, ← hj, hB2,
                joinSegs_concat_getLast? B2 pen2 hpen2ne]
              intro hco
              have h6 := List.getLast?_eq_getLast_of_ne_nil hpen2ne
              rw [h6, Option.some_inj] at hco
              have h7 : '/' ∈ pen2 := hco ▸ List.getLast_mem hpen2ne
              have h8 : pen2 ∈ segsOf q := by
                rw [hq, hB2]
                simp
              exact no_slash_of_mem_segsOf q pen2 h8 h7
          unfold pathPush
          rw [if_neg hwhead, if_neg (by simp), if_neg hjlast]
          -- both sides are '/' :: joinSegs (A2 ++ [wrapped])
          rw [List.reverse_reverse]
          have hright : joinSegs (([] :: A2) ++ [('*' :: (l ++ ['*']))]) =
              '/' :: joinSegs (A2 ++ [('*' :: (l ++ ['*']))]) := by
            have h9 : ([] :: A2) ++ [('*' :: (l ++ ['*']))] =
                [] :: (A2 ++ [('*' :: (l ++ ['*']))]) := by simp
            rw [h9]
            rcases hA2c : A2 ++ [('*' :: (l ++ ['*']))] with _ | ⟨u, us⟩
            · exact absurd hA2c (by simp)
            · rw [joinSegs_cons_cons]
              rfl
          rw [hright, joinSegs_append_single A2 _ hA2ne]
          simp
        · by_cases hcurh : (segsOf p).head? = some ['.']
          · -- relative path with the protected leading '.' before the name
            obtain ⟨A', hA'⟩ : ∃ A', A = ['.'] :: A' := by
              rcases A with _ | ⟨a0, A'⟩
              · simp at hAr
              · rw [hd] at hcurh
                rw [List.cons_append, List.head?_cons] at hcurh
                exact ⟨A', by rw [Option.some_inj.mp hcurh]⟩
            subst hA'
            have hA'ne : A' ≠ [] := by
              intro he
              subst he
              have h10 : ([['.']] : List (List Char)) = pen :: rB := by simpa using hAr
              exact hpen (Or.inr (List.head_eq_of_cons_eq h10).symm)
            obtain ⟨B2, pen2, hB2⟩ : ∃ B2 pen2, A' = B2 ++ [pen2] := by
              rcases List.eq_nil_or_concat A' with he | ⟨B2, pen2, he⟩
              · exact absurd he hA'ne
              · exact ⟨B2, pen2, by rw [he, List.concat_eq_append]⟩
            have hpen2 : pen2 = pen := by
              have h5 : (['.'] :: A').reverse = pen2 :: (B2.reverse ++ [['.']]) := by
                rw [hB2]
                simp
              rw [hAr] at h5
              exact (List.head_eq_of_cons_eq h5).symm
            have hpen2ne : pen2 ≠ [] := fun he => hpen (Or.inl (hpen2 ▸ he))
            have hA2r : trimJunk A'.reverse = A'.reverse := by
              rw [hB2]
              rw [show (B2 ++ [pen2]).reverse = pen2 :: B2.reverse by simp]
              exact trimJunk_cons_keep pen2 B2.reverse (fun hj => hpen (hpen2 ▸ hj))
            rw [pathPop_of_decomp_curdir p A' l hd (not_or.mpr ⟨hl1, hl2⟩) hA2r]
            have hcr : curDirRender A' = '.' :: '/' :: joinSegs A' := by
              rw [hB2]
              rcases B2 with _ | ⟨b0, B3⟩
              · rfl
              · rfl
            rw [hcr]
            have hjne : joinSegs A' ≠ [] := hB2 ▸ joinSegs_concat_ne_nil B2 pen2 hpen2ne
            have hjlast : ¬ ('.' :: '/' :: joinSegs A').getLast? = some '/' := by
              rcases hj : joinSegs A' with _ | ⟨c2, j2⟩
              · exact absurd hj hjne
              · rw [List.getLast?_cons_cons, List.getLast?_cons_cons, ← hj, hB2,
                  joinSegs_concat_getLast? B2 pen2 hpen2ne]
                intro hco
                have h6 := List.getLast?_eq_getLast_of_ne_nil hpen2ne
                rw [h6, Option.some_inj] at hco
                have h7 : '/' ∈ pen2 := hco ▸ List.getLast_mem hpen2ne
                have h8 : pen2 ∈ segsOf p := by
                  rw [hd, hB2]
                  simp
                exact no_slash_of_mem_segsOf p pen2 h8 h7
            unfold pathPush
            rw [if_neg hwhead, if_neg (by simp), if_neg hjlast]
            rw [List.reverse_reverse]
            have hright : joinSegs ((['.'] :: A') ++ [('*' :: (l ++ ['*']))]) =
                '.' :: '/' :: joinSegs (A' ++ [('*' :: (l ++ ['*']))]) := by
              have h9 : (['.'] :: A') ++ [('*' :: (l ++ ['*']))] =
                  ['.'] :: (A' ++ [('*' :: (l ++ ['*']))]) := by simp
              rw [h9]
              rcases hA2c : A' ++ [('*' :: (l ++ ['*']))] with _ | ⟨u, us⟩
              · exact absurd hA2c (by simp)
              · rw [joinSegs_cons_cons]
                rfl
            rw [hright, joinSegs_append_single A' _ hA'ne]
            simp
          · -- relative path, no protected leading '.'
            have hA3 : trimJunk A.reverse = A.reverse := by
              rw [hAr]
              exact trimJunk_cons_keep pen rB hpen
            rw [pathPop_of_decomp_rel p A l hphead hcurh hd (not_or.mpr ⟨hl1, hl2⟩) hA3]
            have hAne : A ≠ [] := by
              intro he
              rw [he] at hAr
              simp at hAr
            have hpenne : pen ≠ [] := fun he => hpen (Or.inl he)
            have hjne : joinSegs A ≠ [] := hA ▸ joinSegs_concat_ne_nil rB.reverse pen hpenne
            have hjlast : ¬ (joinSegs A).getLast? = some '/' := by
              rw [hA, joinSegs_concat_getLast? rB.reverse pen hpenne]
              intro hco
              have h6 := List.getLast?_eq_getLast_of_ne_nil hpenne
              rw [h6, Option.some_inj] at hco
              have h7 : '/' ∈ pen := hco ▸ List.getLast_mem hpenne
              have h8 : pen ∈ segsOf p := by
                rw [hd, hA]
                simp
              exact no_slash_of_mem_segsOf p pen h8 h7
            unfold pathPush
            rw [if_neg hwhead, if_neg hjne, if_neg hjlast]
            rw [List.reverse_reverse, joinSegs_append_single A _ hAne]
      · -- absolute path with a single name: p = '/' :: l
        subst hAroot
        have hp : p = '/' :: l := by
          have := join_segsOf p
          rw [hd] at this
          have h5 : joinSegs ([[]] ++ [l]) = '/' :: l := by
            show joinSegs ([] :: [l]) = '/' :: l
            rw [joinSegs_cons_cons]
            rfl
          rw [h5] at this
          exact this.symm
        have hq : segsOf l = [] ++ [l] := by
          simp [segsOf_no_slash l (no_slash_of_mem_segsOf p l (by rw [hd]; simp))]
        rw [hp, pathPop_of_decomp_abs l [] l hq (not_or.mpr ⟨hl1, hl2⟩) (by simp [trimJunk_nil])]
        unfold pathPush
        rw [if_neg hwhead, if_neg (by simp), if_pos (by simp [joinSegs])]
        rw [List.reverse_reverse]
        show '/' :: joinSegs [] ++ ('*' :: (l ++ ['*'])) = _
        have hright : joinSegs ([[]] ++ [('*' :: (l ++ ['*']))]) =
            '/' :: ('*' :: (l ++ ['*'])) := by
          show joinSegs ([] :: [('*' :: (l ++ ['*']))]) = _
          rw [joinSegs_cons_cons]
          rfl
        rw [hright]
        rfl
      · -- relative path with a single name after the protected '.': p = "./l"
        subst hAcur
        rw [pathPop_of_decomp_curdir p [] l hd (not_or.mpr ⟨hl1, hl2⟩)
          (by simp [trimJunk_nil])]
        show pathPush ['.'] ('*' :: (l ++ ['*'])) = _
        unfold pathPush
        rw [if_neg hwhead, if_neg (by decide), if_neg (by decide)]
        rw [List.reverse_reverse]
        have hright : joinSegs (([['.']] : List (List Char)) ++ [('*' :: (l ++ ['*']))]) =
            '.' :: '/' :: ('*' :: (l ++ ['*'])) := by
          show joinSegs (['.'] :: [('*' :: (l ++ ['*']))]) = _
          rw [joinSegs_cons_cons]
          rfl
        rw [hright]
        rfl

/-- Claim C4, witness: the rule holds at the spec's own example,
`add_glob "/home/user/xxx" = "/home/user/*xxx*"`. -/
theorem c4_witness :
    add_glob "/home/user/xxx".toList = add_glob_spec "/home/user/xxx".toList ∧
    add_glob "/home/user/xxx".toList = "/home/user/*xxx*".toList := by
  refine ⟨c4_last_component_rule _ (Or.inr (by decide)), by decide⟩

/-- Claim C9: for every input already containing a wildcard (in fact for
these and more), applying the last-component wildcard rule twice yields
the same pattern as applying it once. -/
theorem c9_addGlob_idempotent (p : List Char) (h : '*' ∈ p) :
    add_glob (add_glob p) = add_glob p := by
  by_cases hs : p.getLast? = some '/'
  · have h1 : add_glob p = p ++ ['*'] := by
      unfold add_glob
      rw [if_pos hs]
    rw [h1]
    exact add_glob_fixed p ['*'] (by decide) (by decide) (by decide)
  · rcases hc : compLastStr p with _ | last
    · have hpe : p = [] := compLastStr_eq_none p hc
      subst hpe
      simp at h
    · by_cases hst : '*' ∈ last
      · have h1 : add_glob p = p := add_glob_unchanged p last hs hc hst
        rw [h1]
        exact h1
      · have hroot : last ≠ ['/'] := by
          rintro rfl
          exact absurd h (compLastStr_root_no_star p hc)
        have h1 : add_glob p = withFileName p ('*' :: (last ++ ['*'])) :=
          add_glob_of_compLast p last hs hc hst hroot
        have hwhead : ¬ ('*' :: (last ++ ['*'])).head? = some '/' := by simp
        obtain ⟨x, hx⟩ := withFileName_shape p _ hwhead
        rw [h1, hx]
        refine add_glob_fixed x _ ?_ (List.mem_cons_self _ _) ?_
        · intro hm
          rcases List.mem_cons.mp hm with he | hm2
          · exact absurd he (by decide)
          · rcases List.mem_append.mp hm2 with hm3 | hm3
            · exact compLastStr_no_slash p last hc hroot hm3
            · simp at hm3
        · show (('*' :: last) ++ ['*']).getLast? = some '*'
          rw [List.getLast?_concat]

/-- Claim C9, witness at `/home/user/*xxx`. -/
theorem c9_witness :
    '*' ∈ "/home/user/*xxx".toList ∧
    add_glob (add_glob "/home/user/*xxx".toList) = add_glob "/home/user/*xxx".toList :=
  ⟨by decide, c9_addGlob_idempotent _ (by decide)⟩

/-! ## Claim C5: pagination -/

theorem slice_take_drop {α : Type} :
    ∀ (pos lim : Nat) (l : List α),
      ((l.take (pos + lim)).drop pos).take lim = (l.drop pos).take lim := by
  intro pos
  induction pos with
  | zero =>
    intro lim l
    simp [List.take_take]
  | succ p ih =>
    intro lim l
    rcases l with _ | ⟨x, xs⟩
    · simp
    · have h1 : p + 1 + lim = (p + lim) + 1 := by omega
      rw [h1, List.take_succ_cons, List.drop_succ_cons, List.drop_succ_cons]
      exact ih lim xs

/-- The lazy pipeline truncated at `n` agrees with the first `n` results of
the full pipeline, whenever the full pipeline completes without a panic. -/
theorem consumeEntries_of_processAll (di : DirItems) (fs : FSM) :
    ∀ (l : List GlobEntry) (r : List (List Char)),
      processAllEntries di fs l = some r →
      ∀ n : Nat, consumeEntries di fs l n = some (r.take n) := by
  intro l
  induction l with
  | nil =>
    intro r h n
    simp only [processAllEntries, Option.some.injEq] at h
    subst h
    cases n <;> simp [consumeEntries]
  | cons e rest ih =>
    intro r h n
    cases n with
    | zero => simp [consumeEntries]
    | succ n =>
      cases e with
      | errEntry =>
        simp only [processAllEntries] at h
        have h2 := ih r h (n + 1)
        simpa [consumeEntries] using h2
      | okEntry p =>
        simp only [processAllEntries] at h
        simp only [consumeEntries]
        rcases hm : fs.metadata p with _ | d
        · rw [hm] at h
          simp at h
        · rw [hm] at h
          rw [Option.some_bind] at h ⊢
          by_cases hk : keepEntry di d = true
          · rw [if_pos hk] at h ⊢
            rcases hd : displayOf di fs p with _ | s
            · rw [hd] at h
              simp at h
            · rw [hd] at h
              rw [Option.some_bind] at h ⊢
              rcases hr2 : processAllEntries di fs rest with _ | r2
              · rw [hr2] at h
                simp at h
              · rw [hr2] at h
                simp only [Option.map_some', Option.some.injEq] at h
                subst h
                rw [ih r2 hr2 n]
                simp [List.take_succ_cons]
          · rw [if_neg hk] at h ⊢
            exact ih r h (n + 1)

/-- Claim C5: for both feeders, `query(text, position, limit)` is exactly
the slice `full[position .. position + limit]` of the unpaginated result —
order-preserving, no gaps, no duplicates.  For the list feeder this is
unconditional; for `DirItems` it holds whenever the full pipeline
completes (returns `some full`). -/
theorem c5_pagination :
    (∀ (items : List (List Char)) (text : List Char) (pos lim : Nat),
      vecQuery items text pos lim = ((vecFull items text).drop pos).take lim) ∧
    (∀ (di : DirItems) (fs : FSM) (text : List Char) (pos lim : Nat)
      (full : List (List Char)),
      fullResults di fs text = some full →
      DirItems.query di fs text pos lim = some ((full.drop pos).take lim)) := by
  refine ⟨fun items text pos lim => rfl, ?_⟩
  intro di fs text pos lim full h
  unfold fullResults at h
  unfold DirItems.query
  rcases hr : resolveText fs text with _ | p0
  · rw [hr] at h
    simp at h
  · rw [hr] at h
    rw [Option.some_bind] at h ⊢
    by_cases hp : patternOk (add_glob p0) = true
    · rw [if_pos hp] at h ⊢
      rw [consumeEntries_of_processAll di fs _ full h (pos + lim)]
      show some (((full.take (pos + lim)).drop pos).take lim) = _
      rw [slice_take_drop]
    · rw [if_neg hp] at h ⊢
      simp only [Option.some.injEq] at h
      subst h
      simp

/-- Claim C5, witness: slicing at `position 1, limit 2` on a concrete
directory snapshot. -/
theorem c5_witness :
    fullResults diAll fsSlice ['a'] = some [['a', 'x'], ['a', 'y'], ['a', 'z']] ∧
    DirItems.query diAll fsSlice ['a'] 1 2 = some [['a', 'y'], ['a', 'z']] := by
  refine ⟨by decide, ?_⟩
  exact c5_pagination.2 diAll fsSlice ['a'] 1 2 [['a', 'x'], ['a', 'y'], ['a', 'z']] (by decide)

/-! ## Claims C10 and C1: the form counter and validation totality -/

theorem foldl_field_facts {V : Type} :
    ∀ (fields : List (FieldM V)) (fm : FormViewM V), fm.field_count < 256 →
      (fields.foldl FormViewM.field fm).children = fm.children ++ fields ∧
      (fields.foldl FormViewM.field fm).field_count =
        (fm.field_count + fields.length) % 256 := by
  intro fields
  induction fields with
  | nil =>
    intro fm hlt
    simp [Nat.mod_eq_of_lt hlt]
  | cons f rest ih =>
    intro fm hlt
    rw [List.foldl_cons]
    have hstep := ih (fm.field f) (Nat.mod_lt _ (by omega))
    constructor
    · rw [hstep.1]
      show (fm.children ++ [f]) ++ rest = fm.children ++ f :: rest
      simp
    · rw [hstep.2]
      show ((fm.field_count + 1) % 256 + rest.length) % 256 = _
      rw [Nat.mod_add_mod]
      simp only [List.length_cons]
      congr 1
      omega

/-- Claim C10: `FormView` tracks its fields with a u8 counter: appending a
field increments it modulo 2^8, so a form with more than 255 fields
overflows it, after which `validate` and `fields2clap_args` consult only
`n % 256` of the `n` appended fields. -/
theorem c10_u8_counter {V : Type} :
    (∀ (fm : FormViewM V) (f : FieldM V),
      (fm.field f).field_count = (fm.field_count + 1) % 256) ∧
    (∀ fields : List (FieldM V),
      (appendAll fields).field_count = fields.length % 256 ∧
      (appendAll fields).children = fields ∧
      (appendAll fields).validate =
        validateFields (fields.take (fields.length % 256)) ∧
      (appendAll fields).fields2clap_args =
        (fields.take (fields.length % 256)).map FieldM.clap_arg ∧
      (appendAll fields).fields2clap_args.length = fields.length % 256) := by
  refine ⟨fun fm f => rfl, fun fields => ?_⟩
  have hlt : (FormViewM.new : FormViewM V).field_count < 256 := by
    show (0 : Nat) < 256
    decide
  have h := foldl_field_facts fields FormViewM.new hlt
  have hc : (appendAll fields).children = fields := by
    have := h.1
    simpa [appendAll, FormViewM.new] using this
  have hn : (appendAll fields).field_count = fields.length % 256 := by
    have := h.2
    simpa [appendAll, FormViewM.new] using this
  refine ⟨hn, hc, ?_, ?_, ?_⟩
  · unfold FormViewM.validate
    rw [hc, hn]
  · unfold FormViewM.fields2clap_args
    rw [hc, hn]
  · unfold FormViewM.fields2clap_args
    rw [hc, hn]
    rw [List.length_map, List.length_take]
    exact Nat.min_eq_left (Nat.le_of_lt_succ (Nat.lt_succ_of_le (Nat.mod_le _ _)))

theorem insertA_notMem {α : Type} (k : String) (v : α) :
    ∀ l : List (String × α), k ∉ l.map Prod.fst → insertA k v l = l ++ [(k, v)] := by
  intro l
  induction l with
  | nil => intro h; rfl
  | cons kv rest ih =>
    intro h
    rcases kv with ⟨k2, v2⟩
    have hne : k ≠ k2 := by
      intro he
      exact h (by simp [he])
    rw [insertA, if_neg hne, ih (fun hm => h (by simp [hm]))]
    rfl

theorem foldl_valStep {V : Type} :
    ∀ (fields : List (FieldM V)) (d0 : List (String × V))
      (e0 : List (String × FieldErrors)),
      (∀ f ∈ fields, f.label ∉ d0.map Prod.fst ∧ f.label ∉ e0.map Prod.fst) →
      (fields.map FieldM.label).Nodup →
      fields.foldl valStep (d0, e0) =
        (d0 ++ fields.filterMap okPair, e0 ++ fields.filterMap errPair) := by
  intro fields
  induction fields with
  | nil =>
    intro d0 e0 _ _
    simp
  | cons f rest ih =>
    intro d0 e0 hnot hnd
    have hf := hnot f (List.mem_cons_self f rest)
    have hnd' : (FieldM.label f :: rest.map FieldM.label).Nodup := by
      rw [← List.map_cons]
      exact hnd
    have hnd1 := List.nodup_cons.mp hnd'
    have hnd2 : (rest.map FieldM.label).Nodup := hnd1.2
    have hgf : ∀ g ∈ rest, g.label ≠ f.label := by
      intro g hg he
      exact hnd1.1 (he ▸ List.mem_map_of_mem FieldM.label hg)
    rw [List.foldl_cons]
    rcases hres : f.result with v | e
    · have hstep : valStep (d0, e0) f = (insertA f.label v d0, e0) := by
        unfold valStep
        rw [hres]
      have hnot2 : ∀ g ∈ rest,
          g.label ∉ (d0 ++ [(f.label, v)]).map Prod.fst ∧
          g.label ∉ e0.map Prod.fst := by
        intro g hg
        refine ⟨?_, (hnot g (List.mem_cons_of_mem f hg)).2⟩
        rw [List.map_append]
        intro hm
        rcases List.mem_append.mp hm with hm | hm
        · exact (hnot g (List.mem_cons_of_mem f hg)).1 hm
        · simp at hm
          exact hgf g hg hm
      rw [hstep, insertA_notMem f.label v d0 hf.1, ih _ _ hnot2 hnd2]
      have hok : (f :: rest).filterMap okPair = (f.label, v) :: rest.filterMap okPair := by
        simp [List.filterMap_cons, okPair, hres]
      have herr : (f :: rest).filterMap errPair = rest.filterMap errPair := by
        simp [List.filterMap_cons, errPair, hres]
      rw [hok, herr]
      simp
    · have hstep : valStep (d0, e0) f = (d0, insertA f.label e e0) := by
        unfold valStep
        rw [hres]
      have hnot2 : ∀ g ∈ rest,
          g.label ∉ d0.map Prod.fst ∧
          g.label ∉ (e0 ++ [(f.label, e)]).map Prod.fst := by
        intro g hg
        refine ⟨(hnot g (List.mem_cons_of_mem f hg)).1, ?_⟩
        rw [List.map_append]
        intro hm
        rcases List.mem_append.mp hm with hm | hm
        · exact (hnot g (List.mem_cons_of_mem f hg)).2 hm
        · simp at hm
          exact hgf g hg hm
      rw [hstep, insertA_notMem f.label e e0 hf.2, ih _ _ hnot2 hnd2]
      have hok : (f :: rest).filterMap okPair = rest.filterMap okPair := by
        simp [List.filterMap_cons, okPair, hres]
      have herr : (f :: rest).filterMap errPair =
          (f.label, e) :: rest.filterMap errPair := by
        simp [List.filterMap_cons, errPair, hres]
      rw [hok, herr]
      simp

theorem validateFields_eq {V : Type} (fields : List (FieldM V))
    (hnd : (fields.map FieldM.label).Nodup) :
    validateFields fields =
      if fields.filterMap errPair = [] then Res.ok (fields.filterMap okPair)
      else Res.err (fields.filterMap errPair) := by
  unfold validateFields
  rw [foldl_valStep fields [] [] (by simp) hnd]
  simp

theorem filterMap_okPair_keys {V : Type} :
    ∀ fields : List (FieldM V),
      (fields.filterMap okPair).map Prod.fst =
        (fields.filter (fun f => f.passes)).map FieldM.label := by
  intro fields
  induction fields with
  | nil => rfl
  | cons f rest ih =>
    rcases hres : f.result with v | e <;>
      simp [List.filterMap_cons, List.filter_cons, okPair, FieldM.passes, hres, ih]

theorem filterMap_errPair_keys {V : Type} :
    ∀ fields : List (FieldM V),
      (fields.filterMap errPair).map Prod.fst =
        (fields.filter (fun f => !f.passes)).map FieldM.label := by
  intro fields
  induction fields with
  | nil => rfl
  | cons f rest ih =>
    rcases hres : f.result with v | e <;>
      simp [List.filterMap_cons, List.filter_cons, errPair, FieldM.passes, hres, ih]

theorem errPair_nil_iff {V : Type} :
    ∀ fields : List (FieldM V),
      fields.filterMap errPair = [] ↔ ∀ f ∈ fields, f.passes = true := by
  intro fields
  induction fields with
  | nil => simp
  | cons f rest ih =>
    rcases hres : f.result with v | e <;>
      simp [List.filterMap_cons, errPair, FieldM.passes, hres, ih]

/-- Claim C1 (amended): for every form whose u8 counter has not overflowed
(the counter equals the number of fields, true for at most 255 fields) and
whose labels are distinct, `validate` returns exactly one of: a success
map with exactly one entry per field keyed by label (and only when every
field passes), or a non-empty error map whose keys are exactly the labels
of the failing fields — never partial, never both. -/
theorem c1_validate_totality {V : Type} (fm : FormViewM V)
    (hcount : fm.field_count = fm.children.length)
    (hnd : (fm.children.map FieldM.label).Nodup) :
    (∃ d, fm.validate = Res.ok d ∧
      d.map Prod.fst = fm.children.map FieldM.label ∧
      ∀ f ∈ fm.children, f.passes = true) ∨
    (∃ e, fm.validate = Res.err e ∧ e ≠ [] ∧
      e.map Prod.fst = (fm.children.filter (fun f => !f.passes)).map FieldM.label) := by
  unfold FormViewM.validate
  rw [hcount, List.take_length, validateFields_eq fm.children hnd]
  by_cases he : fm.children.filterMap errPair = []
  · left
    refine ⟨fm.children.filterMap okPair, by rw [if_pos he], ?_, (errPair_nil_iff _).mp he⟩
    rw [filterMap_okPair_keys]
    have hfil : fm.children.filter (fun f => f.passes) = fm.children :=
      List.filter_eq_self.mpr ((errPair_nil_iff _).mp he)
    rw [hfil]
  · right
    exact ⟨_, by rw [if_neg he], he, filterMap_errPair_keys _⟩

set_option maxRecDepth 10000 in
/-- Claim C1, witness: a two-field form with a failing second field takes
the error branch with exactly the failing label. -/
theorem c1_witness :
    ((∃ d, badForm.validate = Res.ok d ∧
      d.map Prod.fst = badForm.children.map FieldM.label ∧
      ∀ f ∈ badForm.children, f.passes = true) ∨
    (∃ e, badForm.validate = Res.err e ∧ e ≠ [] ∧
      e.map Prod.fst = (badForm.children.filter (fun f => !f.passes)).map FieldM.label)) ∧
    badForm.validate = Res.err [("dst", ["required"])] := by
  refine ⟨c1_validate_totality badForm (by decide) (by decide), by decide⟩

/-- Claim C1, counterexample: a form of 256 fields with distinct labels.
The u8 counter wraps to 0, `validate` returns a success map with zero
entries — not one entry per field, and not an error map either, so the
claim as stated fails on this form. -/
theorem c1_counterexample :
    (bigForm.children.map FieldM.label).Nodup ∧
    bigForm.children.length = 256 ∧
    bigForm.validate = Res.ok [] ∧
    ¬ ((∃ d, bigForm.validate = Res.ok d ∧
        d.map Prod.fst = bigForm.children.map FieldM.label) ∨
       (∃ e, bigForm.validate = Res.err e ∧ e ≠ [])) := by
  have hlt : (FormViewM.new : FormViewM Unit).field_count < 256 := by
    show (0 : Nat) < 256
    decide
  have hff := foldl_field_facts
    ((List.range 256).map fun i => okField (String.mk (List.replicate i 'a')))
    FormViewM.new hlt
  have hch : bigForm.children =
      (List.range 256).map fun i => okField (String.mk (List.replicate i 'a')) := by
    have h1 := hff.1
    rw [show (FormViewM.new : FormViewM Unit).children = [] from rfl,
      List.nil_append] at h1
    exact h1
  have hlen : bigForm.children.length = 256 := by
    rw [hch]
    simp
  have hcnt : bigForm.field_count = 0 := by
    have h2 := hff.2
    rw [show (FormViewM.new : FormViewM Unit).field_count = 0 from rfl,
      show ((List.range 256).map fun i =>
        okField (String.mk (List.replicate i 'a'))).length = 256 by simp,
      show (0 + 256) % 256 = 0 by decide] at h2
    exact h2
  have hval : bigForm.validate = Res.ok [] := by
    unfold FormViewM.validate
    rw [hcnt]
    rfl
  have hnd : (bigForm.children.map FieldM.label).Nodup := by
    rw [hch]
    rw [List.map_map]
    have hlab : (FieldM.label ∘ fun i => okField (String.mk (List.replicate i 'a'))) =
        fun i : Nat => String.mk (List.replicate i 'a') := rfl
    rw [hlab]
    refine List.Nodup.map ?_ (List.nodup_range 256)
    intro i j he
    have h2 : List.replicate i 'a' = List.replicate j 'a' := by
      injection he
    have h3 := congrArg List.length h2
    simpa using h3
  refine ⟨hnd, hlen, hval, ?_⟩
  rintro (⟨d, hd, hkeys⟩ | ⟨e, he, -⟩)
  · rw [hval] at hd
    simp only [Res.ok.injEq] at hd
    subst hd
    have h4 := congrArg List.length hkeys
    rw [List.length_map, List.length_map, hlen] at h4
    simp at h4
  · rw [hval] at he
    exact Res.noConfusion he

/-! ## Claims C2, C3, C6, C7, C8 -/

/-- Claim C2: the path query does not satisfy "never panics".  A malformed
glob pattern does yield an empty sequence with no error (second conjunct,
the repo's own `**.` test case), but a match whose metadata cannot be
read makes `query` panic — `.metadata().unwrap()` on line 122 — instead
of being dropped: on a snapshot whose single matching entry `x` has
unreadable metadata, `query("x", 0, 10)` evaluates to the panic value
`none` rather than to a list with the entry dropped. -/
theorem c2_metadata_panic :
    DirItems.query diAll fsPanic ['x'] 0 10 = none ∧
    DirItems.query diAll fsPanic ('*' :: ('*' :: ['.'])) 0 10 = some [] ∧
    DirItems.query diAll fsPanic ['x'] 0 0 = some [] := by
  refine ⟨by decide, by decide, by decide⟩

/-- Claim C3: on a submit-intent whose validation fails, the event is
consumed with no callback (the form stays in `Editing` and a retry is
possible — `event_submit` depends only on the unchanged form state), but
the per-field error list is NOT routed anywhere: `show_errors` is never
invoked and its body is commented out, so the `routed` effect list is
empty even though validation produced a non-empty error map. -/
theorem c3_errors_not_routed :
    badForm.validate = Res.err [("dst", ["required"])] ∧
    badForm.event_submit =
      { res := EvRes.consumed none, validations := 1, routed := [] } ∧
    badForm.event_submit.routed = [] ∧
    (badForm.withOnSubmit).event_submit.res = EvRes.consumed none := by
  refine ⟨by decide, by decide, by decide, by decide⟩

/-- Claim C6, counterexample: the list feeder's match is not
case-insensitive in the query.  For the single item `A` and query `A`,
case-folded containment keeps the item (`vecQuerySpec`), but the code
checks whether the lowercased item contains the query as typed
(`"a".contains("A")`), so the item is dropped. -/
theorem c6_counterexample :
    vecQuery [['A']] ['A'] 0 10 = [] ∧
    vecQuerySpec [['A']] ['A'] 0 10 = [['A']] ∧
    ¬ vecQuery [['A']] ['A'] 0 10 = vecQuerySpec [['A']] ['A'] 0 10 := by
  refine ⟨by decide, by decide, by decide⟩

/-- Claim C6 (amended): an item is kept iff its lowercased display string
contains the query text as typed; when the query text is already
lowercase this coincides with case-folded substring containment, so the
match is case-insensitive in the item but only lowercase queries match
case-insensitively. -/
theorem c6_lowercase_filter (items : List (List Char)) (text : List Char)
    (pos lim : Nat) (h : lowerL text = text) :
    vecQuery items text pos lim = vecQuerySpec items text pos lim := by
  unfold vecQuery vecQuerySpec vecFull
  rw [h]

/-- Claim C6, witness: on items `Ab`, `b` with the lowercase query `b`. -/
theorem c6_witness :
    lowerL ['b'] = ['b'] ∧
    vecQuery [['A', 'b'], ['b']] ['b'] 0 10 =
      vecQuerySpec [['A', 'b'], ['b']] ['b'] 0 10 :=
  ⟨by decide, c6_lowercase_filter [['A', 'b'], ['b']] ['b'] 0 10 (by decide)⟩

/-- Claim C7: glob matching is case-sensitive iff the query text contains
an uppercase character: the `MatchOptions` the query passes to the glob
crate set `case_sensitive` to exactly that test, and on a directory
holding `Abc` and `abc` the query `Ab` (uppercase present) matches only
the exact-case `Abc` while the lowercased query `ab` matches both. -/
theorem c7_case_sensitivity :
    (∀ text : List Char, (matchOptionsOf text).case_sensitive = text.any Char.isUpper) ∧
    DirItems.query diAll fsCase ['A', 'b'] 0 10 = some [['A', 'b', 'c']] ∧
    DirItems.query diAll fsCase ['a', 'b'] 0 10 =
      some [['A', 'b', 'c'], ['a', 'b', 'c']] := by
  refine ⟨fun text => rfl, by decide, by decide⟩

/-- Claim C8: whenever a cancel-intent is recognized — Enter, or a left
mouse press, with the dialog focus on button 0 (Cancel) — the handler
returns a consumed event carrying the on-cancel callback exactly when one
is registered (and no other callback, so it is invoked at most once by
the host), and `validate` is never called on this path. -/
theorem c8_cancel_intent {V : Type} (fm : FormViewM V) (ev : EventM)
    (focus : DialogFocusM) (innerRes : EvRes V)
    (hev : ev = EventM.keyEnter ∨ ev = EventM.mousePress true)
    (hfocus : focus = DialogFocusM.button 0) :
    fm.wrap_on_event ev focus innerRes =
      { res := EvRes.consumed (if fm.on_cancel then some CBM.cancel else none)
        validations := 0
        routed := [] } ∧
    (fm.wrap_on_event ev focus innerRes).validations = 0 := by
  subst hfocus
  rcases hev with rfl | rfl
  · exact ⟨rfl, rfl⟩
  · exact ⟨rfl, rfl⟩

/-- Claim C8, witness: Enter on the cancel button of a form with a
registered on-cancel callback hands back exactly that callback. -/
theorem c8_witness :
    cancelForm.wrap_on_event EventM.keyEnter (DialogFocusM.button 0) EvRes.ignored =
      { res := EvRes.consumed (some CBM.cancel), validations := 0, routed := [] } := by
  have h := (c8_cancel_intent cancelForm EventM.keyEnter (DialogFocusM.button 0)
    EvRes.ignored (Or.inl rfl) rfl).1
  rw [h]
  decide

end Fui
